import Mathlib

/-!
Shallow embedding of the haiku-extraction core of the `haikus` repository
(`src/haikus/haikutext.py` and `src/haikus/evaluators.py`).

Texts are strings, word tokens are strings, and a syllable sequence is a
`List (Nat × String)` of (syllable count, surface word) entries, exactly as
produced by `HaikuText.syllable_map`.  The external pronunciation dictionary
(`cmudict`, loaded as `WORD_DICT`) is a parameter `wd : String → Option
(List String)` mapping a word to its first phonetic transcription (the loop
at `haikutext.py` lines 58-59 returns on the first listed pronunciation, and
cmudict pronunciation lists are non-empty).  The heuristic fallback
`nltk_util.syllables_en.count` (vendored outside the core) is a parameter
`heuristic : String → Nat`.  Exceptions are modelled with `Except String`.
-/

namespace Haikus

/-- Python's `string.punctuation` with the apostrophe removed, i.e. the set
`exclude = set(string.punctuation).difference(set("'"))` built in
`HaikuText.filtered_text` and `HaikuText.filtered_word`. -/
def punctuationNoApostrophe : List Char :=
  "!\"#$%&()*+,-./:;<=>?@[\\]^_\x60\x7b|\x7d~".toList

/-- `HaikuText.filtered_text` (haikutext.py lines 34-40): strip punctuation
(except apostrophes) from the whole text. -/
def filtered_text (s : String) : String :=
  String.mk (s.toList.filter (fun ch => ch ∉ punctuationNoApostrophe))

/-- `HaikuText.filtered_word` (haikutext.py lines 42-49): strip punctuation
(except apostrophes) from one token. -/
def filtered_word (w : String) : String :=
  String.mk (w.toList.filter (fun ch => ch ∉ punctuationNoApostrophe))

/-- Accumulator-based tokenizer implementing Python `str.split()` with no
argument: split on runs of whitespace, discarding empty pieces. -/
def tokenizeWs : List Char → List Char → List String
  | [], acc => if acc = [] then [] else [String.mk acc.reverse]
  | c :: cs, acc =>
    if c.isWhitespace then
      (if acc = [] then [] else [String.mk acc.reverse]) ++ tokenizeWs cs []
    else
      tokenizeWs cs (c :: acc)

/-- Python `str.split()` with no argument. -/
def pySplitWhitespace (s : String) : List String :=
  tokenizeWs s.toList []

/-- `word.encode('ascii', 'ignore')` on text input: drop non-ASCII
characters. -/
def asciiIgnore (s : String) : String :=
  String.mk (s.toList.filter (fun c => c.toNat < 128))

/-- Python `str.strip()`: remove leading and trailing whitespace. -/
def pyStrip (s : String) : String :=
  String.mk (((s.toList.dropWhile Char.isWhitespace).reverse.dropWhile
    Char.isWhitespace).reverse)

/-- Python `str.lower()` (ASCII case folding). -/
def pyLower (s : String) : String :=
  String.mk (s.toList.map Char.toLower)

/-- The normalization applied at haikutext.py line 55:
`word = word.encode('ascii', 'ignore').strip().lower()`. -/
def normalizeKey (w : String) : String :=
  pyLower (pyStrip (asciiIgnore w))

/-- Syllables of one phonetic transcription (haikutext.py line 59):
`len([phoneme for phoneme in tree if phoneme[-1].isdigit()])`.  (cmudict
phonemes are non-empty strings; the default character returned for an empty
phoneme is a non-digit, so that unreachable edge cannot change the
count.) -/
def phonemeSyllables (tree : List String) : Nat :=
  (tree.filter (fun ph => (ph.toList.getLastD ' ').isDigit)).length

/-- `HaikuText.unknown_word_handler` (haikutext.py lines 139-147): count
syllables of the punctuation-stripped word with the heuristic; if the count
is zero, raise `NonwordError("%s has no syllables" % word)`. -/
def unknown_word_handler (heuristic : String → Nat) (word : String) :
    Except String (Nat × String) :=
  if 0 < heuristic (filtered_word word) then
    Except.ok (heuristic (filtered_word word), word)
  else
    Except.error (word ++ " has no syllables")

/-- `HaikuText.word_syllables` (haikutext.py lines 51-61): normalize the
token, look it up in the dictionary, and on a `KeyError` fall back to
`unknown_word_handler`.  Note that the normalized (in particular lowercased)
form is also the surface word stored in the returned pair. -/
def word_syllables (wd : String → Option (List String))
    (heuristic : String → Nat) (word : String) : Except String (Nat × String) :=
  match wd (normalizeKey word) with
  | some tree => Except.ok (phonemeSyllables tree, normalizeKey word)
  | none => unknown_word_handler heuristic (normalizeKey word)

/-- Python 2's eager `map(f, xs)` under a `try`: apply `f` left to right;
the first raised exception propagates. -/
def mapExcept {α β ε : Type} (f : α → Except ε β) : List α → Except ε (List β)
  | [] => Except.ok []
  | x :: xs =>
    match f x, mapExcept f xs with
    | Except.error e, _ => Except.error e
    | Except.ok _, Except.error e => Except.error e
    | Except.ok r, Except.ok rs => Except.ok (r :: rs)

/-- `HaikuText.syllable_map` (haikutext.py lines 63-71): map `word_syllables`
over the whitespace-split filtered text; if a `NonwordError` escapes, return
the empty list. -/
def syllable_map (wd : String → Option (List String))
    (heuristic : String → Nat) (text : String) : List (Nat × String) :=
  match mapExcept (word_syllables wd heuristic) (pySplitWhitespace (filtered_text text)) with
  | Except.ok l => l
  | Except.error _ => []

/-- `HaikuText.syllable_count` (haikutext.py lines 73-77). -/
def syllable_count (wd : String → Option (List String))
    (heuristic : String → Nat) (text : String) : Nat :=
  ((syllable_map wd heuristic text).map Prod.fst).sum

/-- The `cumulative` list of haikutext.py lines 108-111: running totals of
the syllable counts, one entry per word (the seed `0` is dropped). -/
def cumulFrom : Nat → List Nat → List Nat
  | _, [] => []
  | acc, c :: cs => (acc + c) :: cumulFrom (acc + c) cs

/-- Cumulative syllable sums of a syllable sequence. -/
def cumulative (m : List (Nat × String)) : List Nat :=
  cumulFrom 0 (m.map Prod.fst)

/-- The dictionary `lookup = dict((v,k) for k, v in enumerate(cumulative))`
of haikutext.py line 115, queried at one value: the index of the LAST
occurrence of `v` (later pairs overwrite earlier ones in a dict
comprehension), or `none` when `v` never occurs (`KeyError`). -/
def lastIdx (v : Nat) : List Nat → Option Nat
  | [] => none
  | c :: cs =>
    match lastIdx v cs with
    | some j => some (j + 1)
    | none => if c = v then some 0 else none

/-- `len(lookup)` = number of distinct cumulative values, which is also
`len(enum_lookup)` for `enum_lookup = list(enumerate(lookup))` at line 116. -/
def distinctCount (cs : List Nat) : Nat :=
  cs.dedup.length

/-- The `start` update of haikutext.py lines 123-126:
`start = enum_lookup[lookup[line] + 1][0]` inside `try`, i.e. `idx + 1` when
that position exists in `enum_lookup` and the previous `start` on
`IndexError`.  (`enum_lookup[j]` is the pair `(j, key_j)`, so `[0]` is just
the position `j` itself.) -/
def nextStart (cs : List Nat) (idx fallback : Nat) : Nat :=
  if idx + 1 < distinctCount cs then idx + 1 else fallback

/-- Python slice `m[start:stop]` for non-negative bounds. -/
def pySlice (m : List (Nat × String)) (start stop : Nat) : List (Nat × String) :=
  (m.take stop).drop start

/-- `' '.join([s[1] for s in section])` (haikutext.py lines 121-122). -/
def joinLine (sec : List (Nat × String)) : String :=
  String.intercalate " " (sec.map Prod.snd)

/-- `HaikuText.find_haiku` (haikutext.py lines 103-131) up to the final
line-joining: the guard `set(cumulative).intersection([5, 12, 17]) ==
set([5, 12, 17])` is membership of all three targets; under it the loop over
`[5, 12, 17]` produces the three slices
`syllable_map[start:lookup[line] + 1]` with the `start` update modelled by
`nextStart`.  The `KeyError` fallback arm is unreachable under the guard. -/
def findHaikuSections (m : List (Nat × String)) :
    Option (List (List (Nat × String))) :=
  if 5 ∈ cumulative m ∧ 12 ∈ cumulative m ∧ 17 ∈ cumulative m then
    match lastIdx 5 (cumulative m), lastIdx 12 (cumulative m),
        lastIdx 17 (cumulative m) with
    | some i5, some i12, some i17 =>
      some [pySlice m 0 (i5 + 1),
            pySlice m (nextStart (cumulative m) i5 0) (i12 + 1),
            pySlice m (nextStart (cumulative m) i12 (nextStart (cumulative m) i5 0))
              (i17 + 1)]
    | _, _, _ => none
  else none

/-- `HaikuText.find_haiku`: on success a `Haiku` holding the three joined
lines, otherwise the explicit not-found result `False` (here `none`). -/
def find_haiku (m : List (Nat × String)) : Option (List String) :=
  (findHaikuSections m).map (fun secs => secs.map joinLine)

/-- The scanning loop of `HaikuText.get_haikus` (haikutext.py lines 93-100)
over a syllable sequence: for each start offset in order, if the remaining
total syllable count is at least 17 try `find_haiku` on the suffix and keep
any hit, otherwise `break`. -/
def scanHaikus : List (Nat × String) → List (List String)
  | [] => []
  | p :: rest =>
    if 17 ≤ ((p :: rest).map Prod.fst).sum then
      (match find_haiku (p :: rest) with
        | some hk => [hk]
        | none => []) ++ scanHaikus rest
    else []

/-- `HaikuText.get_haiku` (haikutext.py lines 79-84): find a haiku at the
beginning of the text. -/
def get_haiku (wd : String → Option (List String))
    (heuristic : String → Nat) (text : String) : Option (List String) :=
  find_haiku (syllable_map wd heuristic text)

/-- `HaikuText.get_haikus` (haikutext.py lines 86-101): find all haikus in
the text. -/
def get_haikus (wd : String → Option (List String))
    (heuristic : String → Nat) (text : String) : List (List String) :=
  scanHaikus (syllable_map wd heuristic text)

/-- `Haiku.calculate_quality` (haikutext.py lines 160-172).  An evaluator
ensemble entry is its `evaluate` function together with its weight; calling
the instantiated evaluator is `weight * evaluate(haiku)`
(`HaikuEvaluator.__call__`, evaluators.py lines 19-20).  Scores and weights
are integers — the realizable default: weights default to the int 1 and the
evaluators return ints — so the Python 2 division `score /= sum(weights)`
at line 169 is floor division, `Int.fdiv` here (which also matches Python's
floor semantics on negative operands).  The default argument is `None`
(`none` here), and iterating over `None` raises a `TypeError`.  A
`ZeroDivisionError` from a zero total weight is swallowed by `pass`,
leaving the undivided score. -/
def calculate_quality (evaluators : Option (List ((List String → ℤ) × ℤ)))
    (hk : List String) : Except String ℤ :=
  match evaluators with
  | none => Except.error "TypeError: NoneType object is not iterable"
  | some evs =>
    Except.ok
      (if (evs.map Prod.snd).sum = 0 then
        (evs.map (fun p => p.2 * p.1 hk)).sum
      else
        Int.fdiv (evs.map (fun p => p.2 * p.1 hk)).sum (evs.map Prod.snd).sum)

/-- `Haiku.line_end_bigrams` (haikutext.py lines 174-186): split each line
on single spaces, then pair the last word of line 1 with the first word of
line 2 and the last word of line 2 with the first word of line 3; on an
`IndexError` (fewer than three lines) return the placeholder
`([' ', ''], ['', ''])`-shaped pair (modelled as pairs of empty strings).
`str.split(" ")` never yields an empty list, so with three lines present the
`[-1]`/`[0]` accesses cannot raise. -/
def line_end_bigrams (ls : List String) : (String × String) × (String × String) :=
  match ls with
  | l1 :: l2 :: l3 :: _ =>
    (((l1.splitOn " ").getLastD "", (l2.splitOn " ").headD ""),
     ((l2.splitOn " ").getLastD "", (l3.splitOn " ").headD ""))
  | _ => (("", ""), ("", ""))

/-- `LineEndPunctuationEvaluator.evaluate` (evaluators.py lines 105-116).
Its first statement is `terminal_punctuation = set(',','!','?','.',';')`,
which passes five arguments to `set` (which accepts at most one iterable),
so every call raises `TypeError` before any line is examined; the loop that
would reward punctuation-terminated lines is dead code. -/
def lineEndPunctuation_evaluate (lines : List String) : Except String ℚ :=
  Except.error "TypeError: set expected at most 1 arguments, got 5"

/-! Specification-side definitions, written from the spec's wording and
compared with the code-side definitions above in the claim theorems. -/

/-- Spec 4.3 step 2: some word boundary of the (sub)sequence lands exactly
on the cumulative total `t`. -/
def hitsTarget (m : List (Nat × String)) (t : Nat) : Prop :=
  ∃ k, k < m.length ∧ ((m.map Prod.fst).take (k + 1)).sum = t

/-- Spec 4.3 step 5: the start offsets `get_haikus` actually attempts, in
order: all offsets from 0 on, stopping as soon as the remaining total
syllable count drops below 17. -/
def scanOffsets (m : List (Nat × String)) : List Nat :=
  (List.range m.length).takeWhile (fun i => decide (17 ≤ ((m.drop i).map Prod.fst).sum))

/-- Syllable total of one extracted section. -/
def sectionSyllables (sec : List (Nat × String)) : Nat :=
  (sec.map Prod.fst).sum

/-- The 5-7-5 result guarantee of spec 4.3 for a found haiku: the three
sections are non-empty, their syllable sums are 5, 7 and 5, the returned
lines are the space-joined sections, and the section word counts add up to
the word count of the haiku window (the prefix reaching cumulative 17). -/
def HaikuOK (m : List (Nat × String)) (ls : List String) : Prop :=
  ∃ s1 s2 s3, findHaikuSections m = some [s1, s2, s3]
    ∧ ls = [joinLine s1, joinLine s2, joinLine s3]
    ∧ s1 ≠ [] ∧ s2 ≠ [] ∧ s3 ≠ []
    ∧ sectionSyllables s1 = 5 ∧ sectionSyllables s2 = 7 ∧ sectionSyllables s3 = 5
    ∧ ∃ k, k < m.length ∧ ((m.map Prod.fst).take (k + 1)).sum = 17
        ∧ s1.length + s2.length + s3.length = k + 1

/-- Last word of a line, in the sense of `line.split(" ")`. -/
def lastWord (line : String) : String :=
  (line.splitOn " ").getLastD ""

/-- First word of a line, in the sense of `line.split(" ")`. -/
def firstWord (line : String) : String :=
  (line.splitOn " ").headD ""

/-! Helper lemmas about the cumulative-sum list and the lookup dictionary. -/

lemma cumulFrom_length (a : Nat) (l : List Nat) :
    (cumulFrom a l).length = l.length := by
  induction l generalizing a with
  | nil => rfl
  | cons c cs ih => simp [cumulFrom, ih]

lemma cumulFrom_get (a : Nat) (l : List Nat) (i : Nat)
    (h' : i < (cumulFrom a l).length) :
    (cumulFrom a l).get ⟨i, h'⟩ = a + (l.take (i + 1)).sum := by
  induction l generalizing a i with
  | nil => simp [cumulFrom] at h'
  | cons c cs ih =>
    cases i with
    | zero => simp [cumulFrom]
    | succ i =>
      have h'' : i < (cumulFrom (a + c) cs).length := by
        simpa [cumulFrom] using h'
      have := ih (a + c) i h''
      simp only [cumulFrom, List.get] at this ⊢
      rw [this]
      simp [List.sum_cons, Nat.add_assoc]

lemma mem_cumulFrom (a t : Nat) (l : List Nat) :
    t ∈ cumulFrom a l ↔ ∃ i, i < l.length ∧ a + (l.take (i + 1)).sum = t := by
  constructor
  · intro ht
    obtain ⟨n, hn⟩ := List.mem_iff_get.mp ht
    refine ⟨n.1, ?_, ?_⟩
    · have h2 := n.2
      have hl := cumulFrom_length a l
      omega
    · rw [← cumulFrom_get a l n.1 n.2]
      exact hn
  · rintro ⟨i, hi, hsum⟩
    have h' : i < (cumulFrom a l).length := by rwa [cumulFrom_length]
    have := cumulFrom_get a l i h'
    rw [hsum] at this
    rw [← this]
    exact List.get_mem _ _ _

lemma sum_take_lt_sum_take (l : List Nat) (hpos : ∀ x ∈ l, 0 < x)
    (i j : Nat) (hij : i < j) (hj : j ≤ l.length) :
    (l.take i).sum < (l.take j).sum := by
  have htt : (l.take j).take i = l.take i := by
    rw [List.take_take, min_eq_left (Nat.le_of_lt hij)]
  have hsplit : l.take i ++ (l.take j).drop i = l.take j := by
    rw [← htt]; exact List.take_append_drop i (l.take j)
  have hd : (l.take j).drop i ≠ [] := by
    have : ((l.take j).drop i).length = j - i := by
      simp [List.length_drop, List.length_take]
      omega
    intro hnil
    rw [hnil] at this
    simp at this
    omega
  have hdpos : 0 < ((l.take j).drop i).sum := by
    refine List.sum_pos _ (fun x hx => ?_) hd
    exact hpos x (List.mem_of_mem_take (List.mem_of_mem_drop hx))
  have := congrArg List.sum hsplit
  rw [List.sum_append] at this
  omega

lemma cumulFrom_get_lt (a : Nat) (l : List Nat) (hpos : ∀ x ∈ l, 0 < x)
    (i j : Nat) (h'i : i < (cumulFrom a l).length)
    (h'j : j < (cumulFrom a l).length) (hij : i < j) :
    (cumulFrom a l).get ⟨i, h'i⟩ < (cumulFrom a l).get ⟨j, h'j⟩ := by
  rw [cumulFrom_get, cumulFrom_get]
  have hj : j + 1 ≤ l.length := by
    rw [cumulFrom_length] at h'j
    omega
  have := sum_take_lt_sum_take l hpos (i + 1) (j + 1) (by omega) hj
  omega

lemma cumulFrom_nodup (a : Nat) (l : List Nat) (hpos : ∀ x ∈ l, 0 < x) :
    (cumulFrom a l).Nodup := by
  rw [List.nodup_iff_injective_get]
  intro n m hnm
  by_contra hne
  have hne' : n.1 ≠ m.1 := fun h => hne (Fin.ext h)
  rcases Nat.lt_or_ge n.1 m.1 with h | h
  · have := cumulFrom_get_lt a l hpos n.1 m.1 n.2 m.2 h
    rw [hnm] at this
    exact lt_irrefl _ this
  · have hlt : m.1 < n.1 := by omega
    have := cumulFrom_get_lt a l hpos m.1 n.1 m.2 n.2 hlt
    rw [hnm] at this
    exact lt_irrefl _ this

lemma lastIdx_isSome_iff (v : Nat) (cs : List Nat) :
    (lastIdx v cs).isSome ↔ v ∈ cs := by
  induction cs with
  | nil => simp [lastIdx]
  | cons c t ih =>
    cases h : lastIdx v t with
    | some j =>
      have hv : v ∈ t := by rw [← ih, h]; rfl
      simp [lastIdx, h, hv]
    | none =>
      have hv : v ∉ t := by
        rw [← ih, h]
        simp
      by_cases hc : c = v
      · simp [lastIdx, h, hc]
      · have : v ≠ c := fun hvc => hc hvc.symm
        simp [lastIdx, h, hc, hv, this]

lemma lastIdx_get (v : Nat) (cs : List Nat) (j : Nat)
    (h : lastIdx v cs = some j) :
    ∃ h' : j < cs.length, cs.get ⟨j, h'⟩ = v := by
  induction cs generalizing j with
  | nil => simp [lastIdx] at h
  | cons c t ih =>
    cases ht : lastIdx v t with
    | some j0 =>
      rw [lastIdx, ht] at h
      have hj : j = j0 + 1 := by
        have := Option.some.inj h
        omega
      subst hj
      obtain ⟨h', hget⟩ := ih j0 ht
      exact ⟨by simpa using Nat.succ_lt_succ h', by simpa using hget⟩
    | none =>
      rw [lastIdx, ht] at h
      by_cases hc : c = v
      · rw [if_pos hc] at h
        have hj : j = 0 := by
          have := Option.some.inj h
          omega
        subst hj
        exact ⟨by simp, hc⟩
      · rw [if_neg hc] at h
        exact absurd h (by simp)

lemma cumulative_length (m : List (Nat × String)) :
    (cumulative m).length = m.length := by
  rw [cumulative, cumulFrom_length, List.length_map]

lemma cumulative_get (m : List (Nat × String)) (i : Nat)
    (h' : i < (cumulative m).length) :
    (cumulative m).get ⟨i, h'⟩ = ((m.map Prod.fst).take (i + 1)).sum := by
  have := cumulFrom_get 0 (m.map Prod.fst) i h'
  simpa using this

/-- Under the membership guard, `findHaikuSections` takes its main branch,
with the three last-occurrence indices of 5, 12 and 17. -/
lemma findHaikuSections_eq_of (m : List (Nat × String)) (i5 i12 i17 : Nat)
    (h5 : lastIdx 5 (cumulative m) = some i5)
    (h12 : lastIdx 12 (cumulative m) = some i12)
    (h17 : lastIdx 17 (cumulative m) = some i17) :
    findHaikuSections m =
      some [pySlice m 0 (i5 + 1),
            pySlice m (nextStart (cumulative m) i5 0) (i12 + 1),
            pySlice m (nextStart (cumulative m) i12 (nextStart (cumulative m) i5 0))
              (i17 + 1)] := by
  have hg : 5 ∈ cumulative m ∧ 12 ∈ cumulative m ∧ 17 ∈ cumulative m := by
    refine ⟨?_, ?_, ?_⟩
    · rw [← lastIdx_isSome_iff, h5]; rfl
    · rw [← lastIdx_isSome_iff, h12]; rfl
    · rw [← lastIdx_isSome_iff, h17]; rfl
  unfold findHaikuSections
  rw [if_pos hg, h5, h12, h17]

lemma slice_sum (m : List (Nat × String)) (a b : Nat) (hab : a ≤ b) :
    ((m.take a).map Prod.fst).sum + ((pySlice m a b).map Prod.fst).sum
      = ((m.take b).map Prod.fst).sum := by
  have hsplit : m.take a ++ (m.take b).drop a = m.take b := by
    have htt : (m.take b).take a = m.take a := by
      rw [List.take_take, min_eq_left hab]
    rw [← htt]
    exact List.take_append_drop a (m.take b)
  have := congrArg (fun l => (l.map Prod.fst).sum) hsplit
  simpa [pySlice, List.sum_append] using this

lemma mem_scanHaikus (m : List (Nat × String)) (hk : List String)
    (h : hk ∈ scanHaikus m) : ∃ i, find_haiku (m.drop i) = some hk := by
  induction m with
  | nil => simp [scanHaikus] at h
  | cons p rest ih =>
    rw [scanHaikus] at h
    by_cases hsum : 17 ≤ ((p :: rest).map Prod.fst).sum
    · rw [if_pos hsum] at h
      rcases List.mem_append.mp h with h1 | h2
      · cases hf : find_haiku (p :: rest) with
        | some hk0 =>
          rw [hf] at h1
          simp at h1
          refine ⟨0, ?_⟩
          rw [List.drop_zero, hf, h1]
        | none =>
          rw [hf] at h1
          simp at h1
      · obtain ⟨i, hi⟩ := ih h2
        exact ⟨i + 1, by rwa [List.drop_succ_cons]⟩
    · rw [if_neg hsum] at h
      simp at h

lemma takeWhile_map_comp {α β : Type} (f : α → β) (p : β → Bool) (l : List α) :
    (l.map f).takeWhile p = (l.takeWhile (fun a => p (f a))).map f := by
  induction l with
  | nil => rfl
  | cons a t ih =>
    by_cases h : p (f a)
    · simp [List.takeWhile_cons, h, ih]
    · simp [List.takeWhile_cons, h]

lemma scanOffsets_cons (p : Nat × String) (rest : List (Nat × String)) :
    scanOffsets (p :: rest) =
      if 17 ≤ ((p :: rest).map Prod.fst).sum then
        0 :: (scanOffsets rest).map (fun i => i + 1)
      else [] := by
  simp only [scanOffsets]
  rw [show (p :: rest).length = rest.length + 1 from rfl, List.range_succ_eq_map,
    List.takeWhile_cons]
  have hpred : (fun i => decide (17 ≤ (((p :: rest).drop (i + 1)).map Prod.fst).sum))
      = (fun i => decide (17 ≤ ((rest.drop i).map Prod.fst).sum)) := by
    funext i
    rw [List.drop_succ_cons]
  by_cases hsum : 17 ≤ ((p :: rest).map Prod.fst).sum
  · rw [if_pos (by rw [List.drop_zero]; exact decide_eq_true hsum), if_pos hsum,
      takeWhile_map_comp, hpred]
  · rw [if_neg (by rw [List.drop_zero]; simpa using hsum), if_neg hsum]

lemma scanHaikus_eq_filterMap (m : List (Nat × String)) :
    scanHaikus m = (scanOffsets m).filterMap (fun i => find_haiku (m.drop i)) := by
  induction m with
  | nil => rfl
  | cons p rest ih =>
    rw [scanHaikus, scanOffsets_cons]
    by_cases hsum : 17 ≤ ((p :: rest).map Prod.fst).sum
    · rw [if_pos hsum, if_pos hsum, List.filterMap_cons]
      have hface : ((scanOffsets rest).map (fun i => i + 1)).filterMap
          (fun i => find_haiku ((p :: rest).drop i))
          = (scanOffsets rest).filterMap (fun i => find_haiku (rest.drop i)) := by
        rw [List.filterMap_map]
        rfl
      simp only [List.drop_zero]
      rw [hface, ← ih]
      cases hf : find_haiku (p :: rest) <;> simp [hf]
    · rw [if_neg hsum, if_neg hsum]
      rfl

/-- Core of claim C2: with positive syllable counts, a found haiku's
sections are non-empty, sum to 5, 7 and 5 syllables, and together cover
exactly the words of the window whose cumulative total reaches 17. -/
lemma find_haiku_pos_ok (m : List (Nat × String))
    (hpos : ∀ p ∈ m, 0 < p.1) (ls : List String)
    (h : find_haiku m = some ls) : HaikuOK m ls := by
  have hposl : ∀ x ∈ m.map Prod.fst, 0 < x := by
    intro x hx
    obtain ⟨p, hp, rfl⟩ := List.mem_map.mp hx
    exact hpos p hp
  rw [find_haiku] at h
  obtain ⟨secs, hsecs, hmap⟩ := Option.map_eq_some'.mp h
  have hg : 5 ∈ cumulative m ∧ 12 ∈ cumulative m ∧ 17 ∈ cumulative m := by
    by_contra hng
    unfold findHaikuSections at hsecs
    rw [if_neg hng] at hsecs
    exact absurd hsecs (by simp)
  obtain ⟨i5, h5⟩ := Option.isSome_iff_exists.mp ((lastIdx_isSome_iff 5 _).mpr hg.1)
  obtain ⟨i12, h12⟩ := Option.isSome_iff_exists.mp ((lastIdx_isSome_iff 12 _).mpr hg.2.1)
  obtain ⟨i17, h17⟩ := Option.isSome_iff_exists.mp ((lastIdx_isSome_iff 17 _).mpr hg.2.2)
  have hdef := findHaikuSections_eq_of m i5 i12 i17 h5 h12 h17
  rw [hdef] at hsecs
  have hsecs' := (Option.some.inj hsecs).symm
  have hlen : (cumulative m).length = m.length := cumulative_length m
  obtain ⟨h5lt, h5get⟩ := lastIdx_get 5 _ i5 h5
  obtain ⟨h12lt, h12get⟩ := lastIdx_get 12 _ i12 h12
  obtain ⟨h17lt, h17get⟩ := lastIdx_get 17 _ i17 h17
  have hi5m : i5 < m.length := by omega
  have hi12m : i12 < m.length := by omega
  have hi17m : i17 < m.length := by omega
  have hml : (m.map Prod.fst).length = m.length := List.length_map _ _
  have e5 : ((m.map Prod.fst).take (i5 + 1)).sum = 5 := by
    have hc := cumulative_get m i5 h5lt
    rw [h5get] at hc
    exact hc.symm
  have e12 : ((m.map Prod.fst).take (i12 + 1)).sum = 12 := by
    have hc := cumulative_get m i12 h12lt
    rw [h12get] at hc
    exact hc.symm
  have e17 : ((m.map Prod.fst).take (i17 + 1)).sum = 17 := by
    have hc := cumulative_get m i17 h17lt
    rw [h17get] at hc
    exact hc.symm
  have hord1 : i5 < i12 := by
    by_contra hle
    push_neg at hle
    have hcmp : ((m.map Prod.fst).take (i12 + 1)).sum ≤
        ((m.map Prod.fst).take (i5 + 1)).sum := by
      rcases Nat.eq_or_lt_of_le hle with heq | hlt
      · rw [heq]
      · exact le_of_lt (sum_take_lt_sum_take _ hposl (i12 + 1) (i5 + 1)
          (by omega) (by omega))
    omega
  have hord2 : i12 < i17 := by
    by_contra hle
    push_neg at hle
    have hcmp : ((m.map Prod.fst).take (i17 + 1)).sum ≤
        ((m.map Prod.fst).take (i12 + 1)).sum := by
      rcases Nat.eq_or_lt_of_le hle with heq | hlt
      · rw [heq]
      · exact le_of_lt (sum_take_lt_sum_take _ hposl (i17 + 1) (i12 + 1)
          (by omega) (by omega))
    omega
  have hnodup : (cumulative m).Nodup := by
    rw [cumulative]
    exact cumulFrom_nodup 0 _ hposl
  have hdC : distinctCount (cumulative m) = m.length := by
    rw [distinctCount, List.Nodup.dedup hnodup, hlen]
  have hns5 : nextStart (cumulative m) i5 0 = i5 + 1 := by
    rw [nextStart, hdC, if_pos (by omega)]
  have hns12 : nextStart (cumulative m) i12 (nextStart (cumulative m) i5 0)
      = i12 + 1 := by
    rw [nextStart, hdC, if_pos (by omega)]
  rw [hns12, hns5] at hsecs'
  refine ⟨pySlice m 0 (i5 + 1), pySlice m (i5 + 1) (i12 + 1),
    pySlice m (i12 + 1) (i17 + 1), ?_, ?_, ?_, ?_, ?_, ?_, ?_, ?_, ?_⟩
  · rw [hdef, hns12, hns5]
  · rw [← hmap, hsecs']
    rfl
  · have : (pySlice m 0 (i5 + 1)).length = i5 + 1 := by
      simp [pySlice, List.length_take]
      omega
    intro hnil
    rw [hnil] at this
    simp at this
  · have : (pySlice m (i5 + 1) (i12 + 1)).length = i12 - i5 := by
      simp [pySlice, List.length_drop, List.length_take]
      omega
    intro hnil
    rw [hnil] at this
    simp at this
    omega
  · have : (pySlice m (i12 + 1) (i17 + 1)).length = i17 - i12 := by
      simp [pySlice, List.length_drop, List.length_take]
      omega
    intro hnil
    rw [hnil] at this
    simp at this
    omega
  · have h0 := slice_sum m 0 (i5 + 1) (by omega)
    rw [sectionSyllables]
    rw [List.take_zero] at h0
    simp only [List.map_nil, List.sum_nil, Nat.zero_add] at h0
    rw [h0, List.map_take, e5]
  · have h1 := slice_sum m (i5 + 1) (i12 + 1) (by omega)
    rw [sectionSyllables]
    rw [List.map_take, e5, List.map_take, e12] at h1
    omega
  · have h2 := slice_sum m (i12 + 1) (i17 + 1) (by omega)
    rw [sectionSyllables]
    rw [List.map_take, e12, List.map_take, e17] at h2
    omega
  · refine ⟨i17, hi17m, e17, ?_⟩
    have l1 : (pySlice m 0 (i5 + 1)).length = i5 + 1 := by
      simp [pySlice, List.length_take]
      omega
    have l2 : (pySlice m (i5 + 1) (i12 + 1)).length = i12 - i5 := by
      simp [pySlice, List.length_drop, List.length_take]
      omega
    have l3 : (pySlice m (i12 + 1) (i17 + 1)).length = i17 - i12 := by
      simp [pySlice, List.length_drop, List.length_take]
      omega
    rw [l1, l2, l3]
    omega

lemma mapExcept_error_of_mem {α β ε : Type} (f : α → Except ε β)
    (l : List α) (x : α) (hx : x ∈ l) (e : ε) (hfx : f x = Except.error e) :
    ∃ e2, mapExcept f l = Except.error e2 := by
  induction l with
  | nil => exact absurd hx (List.not_mem_nil x)
  | cons y t ih =>
    rcases List.mem_cons.mp hx with rfl | hxt
    · exact ⟨e, by simp [mapExcept, hfx]⟩
    · cases hfy : f y with
      | error e2 => exact ⟨e2, by simp [mapExcept, hfy]⟩
      | ok r =>
        obtain ⟨e2, ht⟩ := ih hxt
        exact ⟨e2, by simp [mapExcept, hfy, ht]⟩

lemma word_syllables_absent (wd : String → Option (List String))
    (heuristic : String → Nat) (word : String)
    (habsent : wd (normalizeKey word) = none) :
    word_syllables wd heuristic word
      = unknown_word_handler heuristic (normalizeKey word) := by
  unfold word_syllables
  rw [habsent]

lemma unknown_word_handler_pos (heuristic : String → Nat) (word : String)
    (hp : 0 < heuristic (filtered_word word)) :
    unknown_word_handler heuristic word
      = Except.ok (heuristic (filtered_word word), word) := by
  unfold unknown_word_handler
  rw [if_pos hp]

lemma unknown_word_handler_zero (heuristic : String → Nat) (word : String)
    (hz : heuristic (filtered_word word) = 0) :
    unknown_word_handler heuristic word
      = Except.error (word ++ " has no syllables") := by
  unfold unknown_word_handler
  rw [hz, if_neg (lt_irrefl 0)]

lemma list_nonneg_sum_zero {l : List ℤ} (hnn : ∀ x ∈ l, 0 ≤ x)
    (hz : l.sum = 0) : ∀ x ∈ l, x = 0 := by
  induction l with
  | nil => intro x hx; exact absurd hx (List.not_mem_nil x)
  | cons a t ih =>
    rw [List.sum_cons] at hz
    have ha : 0 ≤ a := hnn a (List.mem_cons_self a t)
    have hts : 0 ≤ t.sum :=
      List.sum_nonneg (fun x hx => hnn x (List.mem_cons_of_mem a hx))
    have ha0 : a = 0 := by omega
    have ht0 : t.sum = 0 := by omega
    intro x hx
    rcases List.mem_cons.mp hx with rfl | hxt
    · exact ha0
    · exact ih (fun y hy => hnn y (List.mem_cons_of_mem a hy)) ht0 x hxt

/-- Python 2 floor division of integers agrees with the floor of the exact
rational quotient (for a positive divisor). -/
lemma fdiv_eq_floor_div (a b : ℤ) (hb : 0 < b) :
    a.fdiv b = ⌊(a : ℚ) / (b : ℚ)⌋ := by
  obtain ⟨n, rfl⟩ : ∃ n : ℕ, b = (n : ℤ) :=
    ⟨b.toNat, (Int.toNat_of_nonneg (le_of_lt hb)).symm⟩
  rw [Int.fdiv_eq_ediv a (le_of_lt hb)]
  rw [show (((n : ℤ) : ℚ)) = ((n : ℕ) : ℚ) from by push_cast; rfl]
  exact (Rat.floor_intCast_div_natCast a n).symm

/-! Claim theorems. -/

/-- Claim C4 (counterexample): for a token absent from the dictionary whose
heuristic syllable estimate is zero, the resolver raises `NonwordError`
instead of assigning the claimed 1-syllable default. -/
theorem unknown_zero_no_default :
    word_syllables (fun _ => none) (fun _ => 0) "xyz"
        = Except.error "xyz has no syllables"
    ∧ word_syllables (fun _ => none) (fun _ => 0) "xyz"
        ≠ Except.ok (1, "xyz") := by
  have h0 : word_syllables (fun _ => none) (fun _ => 0) "xyz"
      = Except.error "xyz has no syllables" := rfl
  refine ⟨h0, fun h => ?_⟩
  rw [h0] at h
  exact absurd h (by simp)

/-- Claim C4 (amended): for a token absent from the dictionary the resolver
returns the heuristic's count when it is positive, and raises
`NonwordError` — rather than assigning a 1-syllable default — when the
heuristic estimates zero syllables. -/
theorem unknown_word_fallback (wd : String → Option (List String))
    (heuristic : String → Nat) (word : String)
    (habsent : wd (normalizeKey word) = none) :
    (0 < heuristic (filtered_word (normalizeKey word)) →
      word_syllables wd heuristic word
        = Except.ok (heuristic (filtered_word (normalizeKey word)), normalizeKey word))
    ∧ (heuristic (filtered_word (normalizeKey word)) = 0 →
      word_syllables wd heuristic word
        = Except.error (normalizeKey word ++ " has no syllables")) := by
  constructor
  · intro hp
    rw [word_syllables_absent wd heuristic word habsent]
    exact unknown_word_handler_pos heuristic (normalizeKey word) hp
  · intro hz
    rw [word_syllables_absent wd heuristic word habsent]
    exact unknown_word_handler_zero heuristic (normalizeKey word) hz

/-- Witness for `unknown_word_fallback`: an absent word with a positive
heuristic count resolves to that count. -/
theorem unknown_word_fallback_witness :
    word_syllables (fun _ => none) String.length "abc" = Except.ok (3, "abc") := by
  have h := (unknown_word_fallback (fun _ => none) String.length "abc" rfl).1 (by decide)
  exact h.trans (by rfl)

/-- Claim C5 (counterexample): the surface word stored by `word_syllables`
is the lowercased normalized token, not the original token text. -/
theorem surface_word_lowercased :
    word_syllables (fun w => if w = "an" then some ["AE1", "N"] else none)
        (fun _ => 0) "An" = Except.ok (1, "an")
    ∧ word_syllables (fun w => if w = "an" then some ["AE1", "N"] else none)
        (fun _ => 0) "An" ≠ Except.ok (1, "An") := by
  have h0 : word_syllables (fun w => if w = "an" then some ["AE1", "N"] else none)
      (fun _ => 0) "An" = Except.ok (1, "an") := rfl
  refine ⟨h0, fun h => ?_⟩
  rw [h0] at h
  have h2 := Except.ok.inj h
  have h3 : ("an" : String) = "An" := congrArg Prod.snd h2
  exact absurd h3 (by decide)

/-- Claim C5 (amended): every surface word stored in the syllable sequence
is the normalized (ascii-filtered, stripped, lowercased) form of its token;
output lines are reconstructed from these lowercased words, the same string
that is used as the dictionary-lookup key. -/
theorem surface_word_normalized (wd : String → Option (List String))
    (heuristic : String → Nat) (word : String) (n : Nat) (s : String)
    (h : word_syllables wd heuristic word = Except.ok (n, s)) :
    s = normalizeKey word := by
  unfold word_syllables at h
  cases hwd : wd (normalizeKey word) with
  | some tree =>
    rw [hwd] at h
    have h2 := Except.ok.inj h
    exact (congrArg Prod.snd h2).symm
  | none =>
    rw [hwd] at h
    have h2 : unknown_word_handler heuristic (normalizeKey word)
        = Except.ok (n, s) := h
    unfold unknown_word_handler at h2
    by_cases hp : 0 < heuristic (filtered_word (normalizeKey word))
    · rw [if_pos hp] at h2
      exact (congrArg Prod.snd (Except.ok.inj h2)).symm
    · rw [if_neg hp] at h2
      exact absurd h2 (by simp)

/-- Witness for `surface_word_normalized` at the concrete token `"An"`. -/
theorem surface_word_normalized_witness :
    ("an" : String) = normalizeKey "An" :=
  surface_word_normalized (fun w => if w = "an" then some ["AE1", "N"] else none)
    (fun _ => 0) "An" 1 "an" rfl

/-- Claim C6 (counterexample): with the integer scores and weights of the
program, `calculate_quality` floor-divides (Python 2 `/` on ints): two
unit-weight evaluators scoring 100 and 1 yield 50, not the weighted mean
101/2 = 50.5 that the claim asserts. -/
theorem weighted_mean_floor_counterexample :
    calculate_quality (some [(fun _ => (100 : ℤ), 1), (fun _ => 1, 1)]) ["pond"]
        = Except.ok 50
    ∧ ((50 : ℚ) ≠ ((100 : ℚ) + 1) / 2) := by
  constructor
  · rfl
  · norm_num

/-- Claim C6 (amended): `calculate_quality` floor-divides the accumulated
score `sum(weight_i * evaluate_i(h))` by the total weight (Python 2 integer
division), so with a positive total weight it returns the floor of the
weighted mean — hence exactly `E`'s raw score for the ensemble `[(E, 1)]`
and `floor((E(h) + F(h)) / 2)` for `[(E, 1), (F, 1)]` — and an ensemble of
non-negative weights with zero total weight (e.g. the empty ensemble)
yields 0 instead of raising a division error. -/
theorem calculate_quality_floored_mean :
    (∀ (hk : List String) (evs : List ((List String → ℤ) × ℤ)),
      0 < (evs.map Prod.snd).sum →
      calculate_quality (some evs) hk
        = Except.ok ⌊((((evs.map (fun p => p.2 * p.1 hk)).sum : ℤ) : ℚ)
            / (((evs.map Prod.snd).sum : ℤ) : ℚ))⌋)
    ∧ (∀ (hk : List String) (E : List String → ℤ),
      calculate_quality (some [(E, 1)]) hk = Except.ok (E hk))
    ∧ (∀ (hk : List String) (E F : List String → ℤ),
      calculate_quality (some [(E, 1), (F, 1)]) hk
        = Except.ok ⌊((E hk + F hk : ℤ) : ℚ) / 2⌋)
    ∧ (∀ (hk : List String) (evs : List ((List String → ℤ) × ℤ)),
      (∀ p ∈ evs, 0 ≤ p.2) → (evs.map Prod.snd).sum = 0 →
      calculate_quality (some evs) hk = Except.ok 0) := by
  refine ⟨?_, ?_, ?_, ?_⟩
  · intro hk evs hpos
    have hne : (evs.map Prod.snd).sum ≠ 0 := ne_of_gt hpos
    simp only [calculate_quality, if_neg hne]
    rw [fdiv_eq_floor_div _ _ hpos]
  · intro hk E
    simp [calculate_quality, Int.fdiv_one]
  · intro hk E F
    simp only [calculate_quality, List.map_cons, List.map_nil, List.sum_cons,
      List.sum_nil, one_mul, add_zero]
    rw [show ((1 : ℤ) + 1) = 2 from by norm_num]
    rw [if_neg (by norm_num : ¬((2 : ℤ) = 0))]
    rw [fdiv_eq_floor_div _ 2 (by norm_num)]
    norm_num
  · intro hk evs hnn hz
    have hall : ∀ p ∈ evs, p.2 = 0 := by
      intro p hp
      refine list_nonneg_sum_zero ?_ hz p.2 (List.mem_map_of_mem Prod.snd hp)
      intro x hx
      obtain ⟨q, hq, rfl⟩ := List.mem_map.mp hx
      exact hnn q hq
    have hscore : (evs.map (fun p => p.2 * p.1 hk)).sum = 0 := by
      apply List.sum_eq_zero
      intro x hx
      obtain ⟨p, hp, rfl⟩ := List.mem_map.mp hx
      rw [hall p hp, zero_mul]
    simp [calculate_quality, hz, hscore]

/-- Witness for `calculate_quality_floored_mean`: one evaluator scoring 100
with weight 2 gives quality 100. -/
theorem calculate_quality_floored_mean_witness :
    calculate_quality (some [(fun _ => (100 : ℤ), 2)]) ["pond"]
      = Except.ok 100 := by
  have h := calculate_quality_floored_mean.1 ["pond"]
    [(fun _ => (100 : ℤ), 2)] (by norm_num)
  rw [h]
  norm_num

/-- Claim C9: if any single token of a text is absent from the dictionary
and the heuristic counts zero syllables for it, the `NonwordError` makes
`syllable_map` return the empty sequence for the whole text, so
`syllable_count` is 0 and `get_haiku`/`get_haikus` find nothing, regardless
of all other tokens. -/
theorem nonword_token_empties_map (wd : String → Option (List String))
    (heuristic : String → Nat) (text tok : String)
    (htok : tok ∈ pySplitWhitespace (filtered_text text))
    (habsent : wd (normalizeKey tok) = none)
    (hzero : heuristic (filtered_word (normalizeKey tok)) = 0) :
    syllable_map wd heuristic text = []
    ∧ syllable_count wd heuristic text = 0
    ∧ get_haiku wd heuristic text = none
    ∧ get_haikus wd heuristic text = [] := by
  have herr : word_syllables wd heuristic tok
      = Except.error (normalizeKey tok ++ " has no syllables") := by
    rw [word_syllables_absent wd heuristic tok habsent]
    exact unknown_word_handler_zero heuristic (normalizeKey tok) hzero
  obtain ⟨e2, hmaperr⟩ := mapExcept_error_of_mem (word_syllables wd heuristic)
    (pySplitWhitespace (filtered_text text)) tok htok _ herr
  have hmap : syllable_map wd heuristic text = [] := by
    simp [syllable_map, hmaperr]
  refine ⟨hmap, ?_, ?_, ?_⟩
  · rw [syllable_count, hmap]
    rfl
  · rw [get_haiku, hmap]
    rfl
  · rw [get_haikus, hmap]
    rfl

/-- Witness for `nonword_token_empties_map`: with an empty dictionary and a
zero heuristic, the token `"zzz"` empties the whole map. -/
theorem nonword_token_empties_map_witness :
    syllable_map (fun _ => none) (fun _ => 0) "Old pond zzz frog" = []
    ∧ syllable_count (fun _ => none) (fun _ => 0) "Old pond zzz frog" = 0
    ∧ get_haiku (fun _ => none) (fun _ => 0) "Old pond zzz frog" = none
    ∧ get_haikus (fun _ => none) (fun _ => 0) "Old pond zzz frog" = [] :=
  nonword_token_empties_map (fun _ => none) (fun _ => 0) "Old pond zzz frog"
    "zzz" (by decide) rfl rfl

/-- Claim C1: `find_haiku` returns a haiku if and only if each of the
cumulative targets 5, 12 and 17 is hit exactly by some prefix of the
syllable sequence; otherwise (in particular when the running total
overshoots a target without landing on it) it returns the explicit
not-found result. -/
theorem find_haiku_iff_targets (m : List (Nat × String)) :
    ((∃ hk, find_haiku m = some hk) ↔
      hitsTarget m 5 ∧ hitsTarget m 12 ∧ hitsTarget m 17)
    ∧ (find_haiku m = none ↔
      ¬(hitsTarget m 5 ∧ hitsTarget m 12 ∧ hitsTarget m 17)) := by
  have hmem : ∀ t, t ∈ cumulative m ↔ hitsTarget m t := by
    intro t
    rw [cumulative, mem_cumulFrom]
    unfold hitsTarget
    simp [List.length_map]
  by_cases hg : 5 ∈ cumulative m ∧ 12 ∈ cumulative m ∧ 17 ∈ cumulative m
  · obtain ⟨i5, h5⟩ := Option.isSome_iff_exists.mp ((lastIdx_isSome_iff 5 _).mpr hg.1)
    obtain ⟨i12, h12⟩ := Option.isSome_iff_exists.mp ((lastIdx_isSome_iff 12 _).mpr hg.2.1)
    obtain ⟨i17, h17⟩ := Option.isSome_iff_exists.mp ((lastIdx_isSome_iff 17 _).mpr hg.2.2)
    have hsec := findHaikuSections_eq_of m i5 i12 i17 h5 h12 h17
    have hfind : ∃ hk, find_haiku m = some hk :=
      ⟨_, by rw [find_haiku, hsec]; rfl⟩
    have htargets : hitsTarget m 5 ∧ hitsTarget m 12 ∧ hitsTarget m 17 :=
      ⟨(hmem 5).mp hg.1, (hmem 12).mp hg.2.1, (hmem 17).mp hg.2.2⟩
    refine ⟨⟨fun _ => htargets, fun _ => hfind⟩, ?_, ?_⟩
    · intro hnone
      obtain ⟨hk, hhk⟩ := hfind
      rw [hhk] at hnone
      exact absurd hnone (by simp)
    · intro hnot
      exact absurd htargets hnot
  · have hnone : find_haiku m = none := by
      rw [find_haiku]
      unfold findHaikuSections
      rw [if_neg hg]
      rfl
    have hnt : ¬(hitsTarget m 5 ∧ hitsTarget m 12 ∧ hitsTarget m 17) := by
      intro ht
      exact hg ⟨(hmem 5).mpr ht.1, (hmem 12).mpr ht.2.1, (hmem 17).mpr ht.2.2⟩
    refine ⟨⟨?_, fun ht => absurd ht hnt⟩, fun _ => hnt, fun _ => hnone⟩
    intro hex
    obtain ⟨hk, hhk⟩ := hex
    rw [hnone] at hhk
    exact absurd hhk (by simp)

/-- Claim C2: over a syllable sequence of positive counts, every haiku
returned by `find_haiku` (and hence every haiku produced by the
`get_haikus` scanning loop, which returns `find_haiku` results of suffixes)
consists of exactly three non-empty lines whose word-level syllable sums are
5, 7 and 5, with the lines' word counts summing to the word count of the
window that reaches cumulative total 17. -/
theorem find_haiku_returns_575 (m : List (Nat × String))
    (hpos : ∀ p ∈ m, 0 < p.1) :
    (∀ ls, find_haiku m = some ls → HaikuOK m ls)
    ∧ (∀ ls, ls ∈ scanHaikus m →
        ∃ i, find_haiku (m.drop i) = some ls ∧ HaikuOK (m.drop i) ls) := by
  constructor
  · exact fun ls h => find_haiku_pos_ok m hpos ls h
  · intro ls hmem
    obtain ⟨i, hi⟩ := mem_scanHaikus m ls hmem
    refine ⟨i, hi, find_haiku_pos_ok (m.drop i) ?_ ls hi⟩
    intro p hp
    exact hpos p (List.drop_subset i m hp)

/-- Witness for `find_haiku_returns_575` at a concrete three-word
sequence. -/
theorem find_haiku_returns_575_witness :
    HaikuOK [(5, "old"), (7, "frog"), (5, "pond")] ["old", "frog", "pond"] :=
  (find_haiku_returns_575 [(5, "old"), (7, "frog"), (5, "pond")]
    (by decide)).1 ["old", "frog", "pond"] (by rfl)

/-- Claim C3: `get_haiku` is exactly `find_haiku` applied to the full
syllable sequence — only the window at word offset 0 is checked, with no
fallback scan — while the `get_haikus` loop tries every start offset in
increasing order, stopping as soon as the remaining total syllable count
drops below 17, and keeps every (possibly overlapping) hit. -/
theorem get_haiku_offset_zero_and_scan :
    (∀ (wd : String → Option (List String)) (heuristic : String → Nat)
        (text : String),
      get_haiku wd heuristic text = find_haiku (syllable_map wd heuristic text))
    ∧ (∀ m : List (Nat × String),
      scanHaikus m = (scanOffsets m).filterMap (fun i => find_haiku (m.drop i)))
    ∧ (∀ (wd : String → Option (List String)) (heuristic : String → Nat)
        (text : String),
      get_haikus wd heuristic text =
        (scanOffsets (syllable_map wd heuristic text)).filterMap
          (fun i => find_haiku ((syllable_map wd heuristic text).drop i))) := by
  refine ⟨fun _ _ _ => rfl, scanHaikus_eq_filterMap, fun wd heuristic text => ?_⟩
  rw [get_haikus, scanHaikus_eq_filterMap]

/-- Claim C7: for a haiku with three lines, `line_end_bigrams` is exactly
the pair ((last word of line 1, first word of line 2), (last word of line 2,
first word of line 3)); with fewer than three lines it is the defined
placeholder pair of empty words, and no error is raised. -/
theorem line_end_bigrams_across_lines :
    (∀ l1 l2 l3 : String,
      line_end_bigrams [l1, l2, l3] =
        ((lastWord l1, firstWord l2), (lastWord l2, firstWord l3)))
    ∧ (∀ ls : List String, ls.length < 3 →
      line_end_bigrams ls = (("", ""), ("", ""))) := by
  constructor
  · intro l1 l2 l3
    rfl
  · intro ls h
    rcases ls with _ | ⟨a, _ | ⟨b, _ | ⟨c, rest⟩⟩⟩
    · rfl
    · rfl
    · rfl
    · exfalso
      simp [List.length_cons] at h
      omega

/-- Witness for `line_end_bigrams_across_lines`: a one-line haiku yields the
placeholder pair. -/
theorem line_end_bigrams_across_lines_witness :
    line_end_bigrams ["only line"] = (("", ""), ("", "")) :=
  line_end_bigrams_across_lines.2 ["only line"] (by decide)

/-- Claim C8 (code bug): `LineEndPunctuationEvaluator.evaluate` raises
`TypeError` on every haiku — its first statement passes five arguments to
`set` — instead of returning a 0-100 punctuation score. -/
theorem lineEndPunctuation_always_raises :
    lineEndPunctuation_evaluate
        ["An old silent pond.", "a frog jumps into the pond!", "splash silence again"]
      = Except.error "TypeError: set expected at most 1 arguments, got 5" := rfl

/-- Claim C10: calling `Haiku.calculate_quality` with the `None` default for
`evaluators` raises a `TypeError` when the `for` loop iterates it, and in
particular neither falls back to the default ensemble nor returns 0. -/
theorem calculate_quality_none_raises (hk : List String) :
    calculate_quality none hk
        = Except.error "TypeError: NoneType object is not iterable"
    ∧ ∀ q : ℤ, calculate_quality none hk ≠ Except.ok q := by
  refine ⟨rfl, fun q h => ?_⟩
  exact absurd h (by simp [calculate_quality])

end Haikus
